import Mathlib

/-!
Verification of the Record Discovery & History Reconstruction Engine of the
Speedrun-Record-Watch repository (src/wr_daily.c, src/wr_weekly.c).

Shallow embedding notes:
* C strings become `String`; `long` / `time_t` epoch values become `Int`
  (no arithmetic in the engine can overflow a 64-bit `long` for realistic
  epoch values, and the claims under study are order/equality claims);
  `double` primary times become `ℚ` so that the epsilon comparisons of the
  replay loop are exact.
* cJSON object-member iteration over the run's `values` object becomes a
  `List (String × JVal)` in iteration order; a missing or non-string member
  value is `JVal.jother` (cJSON's `cJSON_IsString` test fails on it).
* network calls (`fetch_url` + `cJSON_Parse`) are modelled by oracle
  parameters describing the outcome of the call; the engine code never
  inspects anything else about the transport.
* C `qsort` is modelled relationally where its tie behaviour matters
  (the C standard leaves the order of elements that compare equal
  unspecified): a valid result is any permutation of the input that is
  pairwise non-descending under the comparator.
-/

namespace SpeedrunWatch

/-- a cJSON member value as classified by the engine's filter loops:
either a string (possibly empty — cJSON's `valuestring` for `""` is a
non-NULL pointer to an empty buffer) or anything else
(number/object/array/bool/null), which every filter loop in the source
skips via `cJSON_IsString`. -/
inductive JVal where
  | jstr (s : String)
  | jother
deriving DecidableEq

/-- whether a member value passes the `cJSON_IsString(kv) && kv->valuestring`
test used by `make_lb_key` (wr_daily.c:816,828) and
`build_leaderboard_url_top` (wr_daily.c:787). -/
def JVal.isStr : JVal → Bool
  | .jstr _ => true
  | .jother => false

/-- the (variable-id, value-id) pairs collected by the two scans over the
`values` object in `make_lb_key` (wr_daily.c:813-833): exactly the members
whose value is a string (the member name `kv->string` is always present for
an object member). -/
def strPairs (vals : List (String × JVal)) : List (String × String) :=
  vals.filterMap (fun p => match p.2 with
    | .jstr s => some (p.1, s)
    | .jother => none)

/-- the comparator order used by `kv_cmp` (wr_daily.c:799-803): `strcmp` on
the variable id only. -/
def pairLe (a b : String × String) : Prop := a.1 ≤ b.1

instance : DecidableRel pairLe :=
  fun a b => inferInstanceAs (Decidable (a.1 ≤ b.1))

instance : IsTotal (String × String) pairLe :=
  ⟨fun a b => le_total a.1 b.1⟩

instance : IsTrans (String × String) pairLe :=
  ⟨fun _ _ _ h₁ h₂ => le_trans h₁ h₂⟩

/-- embedding of `make_lb_key` (wr_daily.c:805-855): header
`gameId|catId|levelId|` followed by the string-valued filter pairs sorted
by variable id, each serialized as `var=val&`.  The source sorts with
`qsort` + `strcmp`; on pairwise-distinct variable ids (the case the claims
quantify over — a mapping) every comparator-correct sort yields the same
unique order, rendered here by `List.insertionSort` under `pairLe`. -/
def make_lb_key (gameId catId levelId : String) (vals : List (String × JVal)) : String :=
  let header := gameId ++ "|" ++ catId ++ "|" ++ levelId ++ "|"
  ((strPairs vals).insertionSort pairLe).foldl
    (fun acc p => acc ++ p.1 ++ "=" ++ p.2 ++ "&") header

/-!  WR Ledger: entries, sort, prune (wr_daily.c:957-1014, wr_weekly.c:680-743). -/

/-- a persisted WR ledger entry as built by `add_wr_entry_from_run`
(wr_daily.c:1064-1082).  The display-only fields that require further
network fetches at construction time (`subcats`, `players`, `players_data`,
`game_cover`) are not part of the embedding: no claim under study reads
them, and they never influence control flow. -/
structure WrEntry where
  run_id : String
  verified_epoch : Int
  verified_iso : String
  game : String
  category : String
  level : String
  primary_t : ℚ
  weblink : String
deriving DecidableEq

/-- embedding of `wr_cmp_newest_first` (wr_daily.c:988-996, identical in
wr_weekly.c:711-719): compares only `verified_epoch`, newest first. -/
def wr_cmp_newest_first (a b : WrEntry) : Int :=
  if a.verified_epoch > b.verified_epoch then -1
  else if a.verified_epoch < b.verified_epoch then 1
  else 0

/-- the relational contract of C `qsort` with comparator `cmp`: the output
is a permutation of the input that is pairwise non-descending under the
comparator.  The C standard (7.22.5.2) guarantees exactly this and leaves
the relative order of elements that compare equal unspecified, so
`sorted_wrs_dup` (wr_daily.c:998-1014) and `sort_wrs_array`
(wr_weekly.c:721-743) — both of which sort an array of entry pointers with
`qsort` and rebuild the array in the resulting order — are modelled by this
postcondition. -/
def QsortedBy (cmp : α → α → Int) (input output : List α) : Prop :=
  input.Perm output ∧ output.Pairwise (fun x y => cmp x y ≤ 0)

/-- the postcondition of `sorted_wrs_dup` / `sort_wrs_array`. -/
def sortedNewestFirstPost (input output : List WrEntry) : Prop :=
  QsortedBy wr_cmp_newest_first input output

/-- specification-side definition (from the spec's words, for the stability
comparison of C2): the unique stable newest-first order — entries sorted by
`verified_epoch` descending, equal instants kept in input order.  Stability
is rendered by its standard characterization: for every instant value, the
subsequence of entries carrying that instant is unchanged. -/
def StableTies (input output : List WrEntry) : Prop :=
  ∀ e : Int, output.filter (fun x => x.verified_epoch = e)
    = input.filter (fun x => x.verified_epoch = e)

/-- embedding of `prune_old_wrs` (wr_daily.c:977-986, identical in
wr_weekly.c:700-709): the source walks the array backwards deleting every
entry whose `verified_epoch` is `< cutoff` (deleting index `i` shifts only
indices above `i`, which are already visited, so the surviving entries keep
their forward order) — i.e. it keeps exactly the entries with
`cutoff ≤ verified_epoch`, in order. -/
def prune_old_wrs (arr : List WrEntry) (cutoff : Int) : List WrEntry :=
  arr.filter (fun it => !(it.verified_epoch < cutoff))

/-!  History Reconstructor replay loop (wr_daily.c:1136-1295). -/

/-- one ranked-run record as collected by `track_leaderboard_history`
(wr_daily.c:1136-1140): run id, primary time, verification epoch. -/
structure LbRunInfo where
  run_id : String
  primary_t : ℚ
  verified_epoch : Int
deriving DecidableEq

/-- the epsilon of the replay loop, `EPS = 1e-6` (wr_daily.c:1253). -/
def trackEps : ℚ := 1 / 1000000

/-- the `best` update of one replay iteration (wr_daily.c:1257-1271):
`none` stands for the C state `best = INFINITY, have_baseline = 0`; the
first candidate then seeds `best`; an improvement by more than epsilon
replaces `best`; a tie or a worse time leaves it unchanged. -/
def replayStepBest (best : Option ℚ) (t : ℚ) : Option ℚ :=
  match best with
  | none => some t
  | some b => if t < b - trackEps then some t else some b

/-- the inclusion test of one replay iteration (wr_daily.c:1258-1271):
included when no baseline is established yet, or on a strict improvement
past epsilon, or on a tie within epsilon. -/
def replayInclude (best : Option ℚ) (t : ℚ) : Bool :=
  match best with
  | none => true
  | some b =>
    if t < b - trackEps then true
    else if |t - b| ≤ trackEps then true
    else false

/-- the replay loop of `track_leaderboard_history` (wr_daily.c:1253-1292)
over the already-sorted candidate array, returning for each candidate
whether it is included in the reconstructed record chain.  (The per-included
ledger insertion that follows the flag is `add_wr_entry_from_run`, modelled
separately; it does not feed back into the flag computation.) -/
def replayFlags (best : Option ℚ) : List LbRunInfo → List Bool
  | [] => []
  | c :: cs => replayInclude best c.primary_t ::
      replayFlags (replayStepBest best c.primary_t) cs

/-- the `best` state after replaying a list of candidates. -/
def replayBestAfter (best : Option ℚ) (cs : List LbRunInfo) : Option ℚ :=
  cs.foldl (fun acc c => replayStepBest acc c.primary_t) best

/-- the sort order the candidates enter the replay loop in
(`lbrun_cmp_epoch_asc`, wr_daily.c:1148-1154): verification epoch
ascending. -/
def epochSorted (cs : List LbRunInfo) : Prop :=
  cs.Pairwise (fun a b => a.verified_epoch ≤ b.verified_epoch)

instance (cs : List LbRunInfo) : Decidable (epochSorted cs) :=
  inferInstanceAs (Decidable (cs.Pairwise _))

/-!  Ledger insertion (wr_daily.c:1018-1084, wr_weekly.c:747-796). -/

/-- the fields of a feed/detail run object that `add_wr_entry_from_run`
reads, after `extract_id_and_name` (wr_daily.c:490-514) has reduced each of
the `game` / `category` / `level` members to an optional id and an optional
display name.  `primary_t` is `-1` when `times.primary_t` is absent
(`json_get_number` fallback, wr_daily.c:1051-1053). -/
structure RunObj where
  id : Option String
  gameId : Option String
  gameName : Option String
  catId : Option String
  catName : Option String
  levelId : Option String
  levelName : Option String
  primary_t : ℚ
  weblink : Option String
deriving DecidableEq

/-- embedding of `add_wr_entry_from_run` (wr_daily.c:1018-1084).  State is
the pair (ledger array `wrs`, run-id dedup set `runIds` — the `StrSet`
seeded by `main` with every ledger entry's `run_id`, wr_daily.c:1704-1710,
modelled as a list with membership semantics).  Guards in source order:
missing run id → no-op; id already in the set → no-op; missing game or
category id → no-op; otherwise the entry is appended and the id added to
the set. -/
def add_wr_entry_from_run (wrs : List WrEntry) (runIds : List String)
    (run : RunObj) (verified_epoch : Int) (verify_date : String) :
    List WrEntry × List String :=
  match run.id with
  | none => (wrs, runIds)
  | some rid =>
    if rid ∈ runIds then (wrs, runIds)
    else
      match run.gameId, run.catId with
      | some g, some c =>
          let entry : WrEntry :=
            { run_id := rid
              verified_epoch := verified_epoch
              verified_iso := verify_date
              game := run.gameName.getD g
              category := run.catName.getD c
              level := match run.levelId with
                       | some l => run.levelName.getD l
                       | none => ""
              primary_t := run.primary_t
              weblink := run.weblink.getD "" }
          (wrs ++ [entry], rid :: runIds)
      | _, _ => (wrs, runIds)

/-- embedding of `run_id_in_array` (wr_weekly.c:194-203): whether some
ledger entry carries the given run id.  This is the `has` predicate of the
weekly variant, whose `maybe_add_wr_from_run` (wr_weekly.c:747-796) returns
immediately when it is true. -/
def run_id_in_array (wrs : List WrEntry) (rid : String) : Bool :=
  wrs.any (fun e => e.run_id = rid)

/-!  Leaderboard Verifier + memo cache (wr_daily.c:746-929). -/

/-- the observable outcome of the top-1 leaderboard query issued by
`fetch_top1_run_id` (wr_daily.c:888-905): the fetch or the JSON parse
failed (`fetch_url` returned NULL or `cJSON_Parse` returned NULL), or the
document parsed but held no top run id (`data.runs` missing/empty, first
entry without a `run` object or without an `id` string), or a top run id
was extracted. -/
inductive Top1Outcome where
  | fetchFail
  | noTopId
  | topId (id : String)
deriving DecidableEq

/-- embedding of `lb_cache_get` (wr_daily.c:857-862): first match in the
intrusive list wins. -/
def lb_cache_get : List (String × String) → String → Option String
  | [], _ => none
  | (k, v) :: rest, key => if k = key then some v else lb_cache_get rest key

/-- embedding of `lb_cache_put` (wr_daily.c:864-871): prepend. -/
def lb_cache_put (cache : List (String × String)) (key id : String) :
    List (String × String) :=
  (key, id) :: cache

/-- embedding of `fetch_top1_run_id` (wr_daily.c:873-918): build the
canonical key; on a cache hit return the cached top id without fetching;
otherwise consult the network (the `outcome` oracle) — a extracted top id
is stored and returned, every failure path returns NULL and leaves the
cache untouched.  Returns (top run id or NULL, cache afterwards). -/
def fetch_top1_run_id (cache : List (String × String))
    (gameId catId levelId : String) (vals : List (String × JVal))
    (outcome : Top1Outcome) : Option String × List (String × String) :=
  let key := make_lb_key gameId catId levelId vals
  match lb_cache_get cache key with
  | some cached => (some cached, cache)
  | none =>
    match outcome with
    | .topId id => (some id, lb_cache_put cache key id)
    | _ => (none, cache)

/-- embedding of `is_current_wr` (wr_daily.c:920-929, identical in
wr_weekly.c:643-652): NULL top id or NULL run id → 0, else `strcmp`
equality.  The C `runId` pointer may be NULL, hence `Option String`. -/
def is_current_wr (cache : List (String × String)) (runId : Option String)
    (gameId catId levelId : String) (vals : List (String × JVal))
    (outcome : Top1Outcome) : Bool × List (String × String) :=
  let res := fetch_top1_run_id cache gameId catId levelId vals outcome
  match res.1, runId with
  | some topId, some rid => (topId = rid, res.2)
  | _, _ => (false, res.2)

/-!  Feed Scanner (wr_daily.c:1299-1437; wr_weekly.c:798-924 is the same
loop with a 6-hour overlap window and direct per-run insertion instead of
key-driven history reconstruction). -/

/-- one item of a fetched feed page, as far as the scan loop inspects it.
`vtime` is the parsed verification instant (`parse_iso8601_utc` of
`status.verify-date`), `none` when the item is not an object or the date is
absent/unparseable — both cases `continue` without touching any state.
`lbKey` is the canonical key of the run's leaderboard, `none` when
`extract_id_and_name` yields no game id or no category id.  `isWR` is the
oracle for the `is_current_wr` network answer for this run, and `histIds`
the oracle for the set of run ids that `track_leaderboard_history` inserts
into the ledger (and the dedup set) when it is invoked for this run's
key. -/
structure FeedRun where
  vtime : Option Int
  runId : Option String
  lbKey : Option String
  isWR : Bool
  histIds : List String

/-- a fetched page: `none` when `fetch_url` failed, the JSON did not parse,
or `data` was not an array (all of which stop paging); otherwise the list
of items. -/
abbrev PageOutcome := Option (List FeedRun)

/-- the scan state threaded through the loop: the running maximum
`new_last_seen`, the ledger dedup set `runIds`, the per-scan
`processedKeys` set, and (ghost, for specification only) the list of every
parsed verification instant the loop has observed. -/
structure ScanSt where
  lastSeen : Int
  runIds : List String
  keys : List String
  observed : List Int
deriving DecidableEq

/-- records one parsed verification instant: the running-maximum update at
wr_daily.c:1380 plus the ghost trace. -/
def seeInstant (st : ScanSt) (v : Int) : ScanSt :=
  { st with lastSeen := max st.lastSeen v, observed := st.observed ++ [v] }

/-- the guard chain of the loop body below the scan-floor check
(wr_daily.c:1383-1415): older than the retention cutoff → continue;
missing run id → continue; run id already in the ledger set → continue;
missing game/category id (no key) → continue; not the current WR →
continue; key already processed this scan → continue; otherwise mark the
key processed and run the history reconstruction (whose ledger additions
the `histIds` oracle supplies).  Every `continue` leaves the state as it
stands. -/
def processRun (cutoff : Int) (st : ScanSt) (r : FeedRun) (v : Int) : ScanSt :=
  if v < cutoff then st
  else
    match r.runId with
    | none => st
    | some rid =>
      if rid ∈ st.runIds then st
      else
        match r.lbKey with
        | none => st
        | some k =>
          if r.isWR then
            if k ∈ st.keys then st
            else { st with keys := k :: st.keys,
                           runIds := r.histIds ++ st.runIds }
          else st

/-- the inner per-page loop of `scan_new_runs_and_update`
(wr_daily.c:1368-1418).  Returns the state and the `stop` flag.  Source
order: unparseable instant → continue without recording anything; record
the instant into the running maximum; below `scan_floor` → stop the whole
scan; otherwise run the remaining guard chain (`processRun`) and move to
the next item. -/
def pageLoop (floor cutoff : Int) (st : ScanSt) : List FeedRun → ScanSt × Bool
  | [] => (st, false)
  | r :: rs =>
    match r.vtime with
    | none => pageLoop floor cutoff st rs
    | some v =>
      let st1 := seeInstant st v
      if v < floor then (st1, true)
      else pageLoop floor cutoff (processRun cutoff st1 r v) rs

/-- the outer paging loop of `scan_new_runs_and_update`
(wr_daily.c:1326-1429): a failed fetch/parse stops with the state
accumulated so far; an empty page stops; after a page, stop when the inner
loop hit the floor or when the page was shorter than the requested
`max = 200`. -/
def scanLoop (floor cutoff : Int) (st : ScanSt) : List PageOutcome → ScanSt
  | [] => st
  | none :: _ => st
  | some page :: rest =>
    if page.length = 0 then st
    else
      let res := pageLoop floor cutoff st page
      if res.2 then res.1
      else if page.length < 200 then res.1
      else scanLoop floor cutoff res.1 rest

/-- the overlap window of the daily scanner (wr_daily.c:1309), 24 hours. -/
def overlap_daily : Int := 24 * 3600

/-- the scan floor computation (wr_daily.c:1308-1316; wr_weekly.c:807-814
with `overlap = 6*3600`): `last_seen - overlap` when a prior last-seen
value exists, else `cutoff - overlap`, clamped below at 0. -/
def scan_floor (last_seen cutoff overlap : Int) : Int :=
  let f := if last_seen > 0 then last_seen - overlap else cutoff - overlap
  if f < 0 then 0 else f

/-- embedding of `scan_new_runs_and_update` (wr_daily.c:1299-1437): compute
the floor, start from `new_last_seen = last_seen_epoch` and an empty
per-scan key set, and page through the feed.  The C function returns
`new_last_seen`, i.e. `(scan_new_runs_and_update ...).lastSeen`. -/
def scan_new_runs_and_update (last_seen cutoff : Int) (runIds : List String)
    (pages : List PageOutcome) : ScanSt :=
  scanLoop (scan_floor last_seen cutoff overlap_daily) cutoff
    { lastSeen := last_seen, runIds := runIds, keys := [], observed := [] } pages

/-- embedding of `maybe_add_wr_from_run` (wr_weekly.c:747-796): the weekly
variant checks the ledger array itself (`run_id_in_array`) instead of a
separate dedup set, and verifies current-WR status (threading the memo
cache) before inserting.  Returns (ledger, memo cache) afterwards. -/
def maybe_add_wr_from_run (cache : List (String × String)) (wrs : List WrEntry)
    (run : RunObj) (vals : List (String × JVal)) (outcome : Top1Outcome)
    (verified_epoch : Int) (verify_date : String) :
    List WrEntry × List (String × String) :=
  match run.id with
  | none => (wrs, cache)
  | some rid =>
    if run_id_in_array wrs rid then (wrs, cache)
    else
      match run.gameId, run.catId with
      | some g, some c =>
          let res := is_current_wr cache (some rid) g c
            (run.levelId.getD "") vals outcome
          if res.1 then
            let entry : WrEntry :=
              { run_id := rid
                verified_epoch := verified_epoch
                verified_iso := verify_date
                game := run.gameName.getD g
                category := run.catName.getD c
                level := match run.levelId with
                         | some l => run.levelName.getD l
                         | none => ""
                primary_t := run.primary_t
                weblink := run.weblink.getD "" }
            (wrs ++ [entry], res.2)
          else (wrs, res.2)
      | _, _ => (wrs, cache)

/-!  Helper lemmas. -/

theorem strPairs_filter (vals : List (String × JVal)) :
    strPairs (vals.filter (fun p => p.2.isStr)) = strPairs vals := by
  induction vals with
  | nil => rfl
  | cons p rest ih =>
    rcases p with ⟨k, v⟩
    cases v with
    | jstr s => simpa [strPairs, List.filter_cons, JVal.isStr] using ih
    | jother => simpa [strPairs, List.filter_cons, JVal.isStr] using ih

/-- strict comparator order on filter pairs: variable id strictly below.
On a list whose variable ids are pairwise distinct, `strcmp`-sortedness is
sortedness under this strict order, which pins the sorted list down
uniquely. -/
def pairLt (a b : String × String) : Prop := a.1 < b.1

instance : IsAntisymm (String × String) pairLt :=
  ⟨fun _ _ h₁ h₂ => absurd h₂ (lt_asymm h₁)⟩

theorem strPairs_fst_sublist (vals : List (String × JVal)) :
    ((strPairs vals).map Prod.fst).Sublist (vals.map Prod.fst) := by
  induction vals with
  | nil => simp [strPairs]
  | cons p rest ih =>
    rcases p with ⟨k, v⟩
    cases v with
    | jstr s => simpa [strPairs] using ih.cons₂ k
    | jother => simpa [strPairs] using ih.cons k

theorem sorted_pairLt_of_sorted_le {s : List (String × String)}
    (hs : List.Sorted pairLe s) (hnd : (s.map Prod.fst).Nodup) :
    List.Pairwise pairLt s := by
  have hne : s.Pairwise (fun a b => a.1 ≠ b.1) := List.pairwise_map.1 hnd
  exact (hs.and hne).imp (fun h => lt_of_le_of_ne h.1 h.2)

theorem insertionSort_eq_of_perm_of_nodup_fst {l₁ l₂ : List (String × String)}
    (hp : l₁.Perm l₂) (hnd : (l₁.map Prod.fst).Nodup) :
    l₁.insertionSort pairLe = l₂.insertionSort pairLe := by
  have hperm : (l₁.insertionSort pairLe).Perm (l₂.insertionSort pairLe) :=
    (List.perm_insertionSort pairLe l₁).trans
      (hp.trans (List.perm_insertionSort pairLe l₂).symm)
  have hnd₁ : ((l₁.insertionSort pairLe).map Prod.fst).Nodup :=
    hnd.perm ((List.perm_insertionSort pairLe l₁).map Prod.fst).symm
  have hnd₂ : ((l₂.insertionSort pairLe).map Prod.fst).Nodup :=
    hnd₁.perm (hperm.map Prod.fst)
  exact List.eq_of_perm_of_sorted hperm
    (sorted_pairLt_of_sorted_le (List.sorted_insertionSort pairLe l₁) hnd₁)
    (sorted_pairLt_of_sorted_le (List.sorted_insertionSort pairLe l₂) hnd₂)

theorem replayFlags_get (b : Option ℚ) (cs : List LbRunInfo) (i : ℕ)
    (cand : LbRunInfo) (h : cs.get? i = some cand) :
    (replayFlags b cs).get? i
      = some (replayInclude (replayBestAfter b (cs.take i)) cand.primary_t) := by
  induction cs generalizing b i with
  | nil => simp at h
  | cons c rest ih =>
    cases i with
    | zero =>
      simp only [List.get?] at h
      cases h
      simp [replayFlags, replayBestAfter]
    | succ n =>
      simp only [List.get?] at h
      simpa [replayFlags, replayBestAfter] using
        ih (replayStepBest b c.primary_t) n h

/-!  Claim theorems. -/

/-- C1: in the replay loop of `track_leaderboard_history`, for every
baseline (`none` = infinity) and every candidate list sorted by
verification instant ascending, the candidate at position `i` is included
in the reconstructed record chain exactly when, relative to the `best`
state left by the candidates before it, no baseline is established yet, or
its time improves on `best` by more than epsilon (which then updates
`best`), or its time ties `best` within epsilon (no update); strictly
worse candidates are excluded.  In particular the spec's example — times
`[10.0, 9.5, 9.5, 9.8, 9.0]` against baseline infinity — yields inclusion
flags `[true, true, true, false, true]`, i.e. the included set
`{t1, t2, t3, t5}`. -/
theorem replay_inclusion_characterization :
    (∀ (b : Option ℚ) (cs : List LbRunInfo), epochSorted cs →
      ∀ (i : ℕ) (cand : LbRunInfo), cs.get? i = some cand →
        (replayFlags b cs).get? i
          = some (replayInclude (replayBestAfter b (cs.take i)) cand.primary_t)) ∧
    replayFlags none
      [⟨"t1", 10, 1⟩, ⟨"t2", 19/2, 2⟩, ⟨"t3", 19/2, 3⟩, ⟨"t4", 49/5, 4⟩,
       ⟨"t5", 9, 5⟩]
      = [true, true, true, false, true] := by
  constructor
  · intro b cs _ i cand h
    exact replayFlags_get b cs i cand h
  · norm_num [replayFlags, replayInclude, replayStepBest, trackEps, abs_le]

/-- witness for C1: the characterization applied to the second candidate of
a concrete sorted two-candidate list. -/
theorem replay_inclusion_characterization_witness :
    (replayFlags none [⟨"t1", 10, 1⟩, ⟨"t2", 19/2, 2⟩]).get? 1
      = some (replayInclude
          (replayBestAfter none ([⟨"t1", 10, 1⟩, ⟨"t2", 19/2, 2⟩].take 1))
          (19/2)) :=
  replay_inclusion_characterization.1 none
    [⟨"t1", 10, 1⟩, ⟨"t2", 19/2, 2⟩] (by decide) 1 ⟨"t2", 19/2, 2⟩ rfl

/-- C2 (counterexample): stability is NOT guaranteed.  `sorted_wrs_dup` /
`sort_wrs_array` sort with C `qsort`, whose order on elements comparing
equal is unspecified (C17 7.22.5.2); the comparator looks only at
`verified_epoch`, so for a ledger of two distinct entries with equal
instants the reversed output satisfies the sort's postcondition while
breaking insertion order. -/
theorem sortedNewestFirst_stability_cex :
    ¬ (∀ input output : List WrEntry, sortedNewestFirstPost input output →
        output.Pairwise (fun x y => y.verified_epoch ≤ x.verified_epoch) ∧
        StableTies input output) := by
  intro h
  have hpost : sortedNewestFirstPost
      [⟨"a", 100, "", "", "", "", 0, ""⟩, ⟨"b", 100, "", "", "", "", 0, ""⟩]
      [⟨"b", 100, "", "", "", "", 0, ""⟩, ⟨"a", 100, "", "", "", "", 0, ""⟩] :=
    ⟨by decide, by decide⟩
  have h100 := (h _ _ hpost).2 100
  exact absurd h100 (by decide)

/-- C2 (amended): the sort produces a permutation of the ledger that is
totally ordered by verification instant descending; the relative order of
entries with equal instants is unspecified (C `qsort` gives no stability
guarantee). -/
theorem sortedNewestFirst_perm_sorted_desc (input output : List WrEntry)
    (h : sortedNewestFirstPost input output) :
    output.Perm input ∧
    output.Pairwise (fun x y => y.verified_epoch ≤ x.verified_epoch) := by
  refine ⟨h.1.symm, h.2.imp ?_⟩
  intro a b hc
  by_contra hnb
  push_neg at hnb
  have h1 : ¬ (a.verified_epoch > b.verified_epoch) := not_lt.2 hnb.le
  rw [wr_cmp_newest_first, if_neg h1, if_pos hnb] at hc
  exact absurd hc (by norm_num)

/-- witness for C2 (amended) on a concrete two-entry ledger and a valid
qsort output for it. -/
theorem sortedNewestFirst_perm_sorted_desc_witness :
    ([⟨"b", 100, "", "", "", "", 0, ""⟩, ⟨"a", 100, "", "", "", "", 0, ""⟩] :
        List WrEntry).Perm
      [⟨"a", 100, "", "", "", "", 0, ""⟩, ⟨"b", 100, "", "", "", "", 0, ""⟩] ∧
    ([⟨"b", 100, "", "", "", "", 0, ""⟩, ⟨"a", 100, "", "", "", "", 0, ""⟩] :
        List WrEntry).Pairwise
      (fun x y => y.verified_epoch ≤ x.verified_epoch) :=
  sortedNewestFirst_perm_sorted_desc
    [⟨"a", 100, "", "", "", "", 0, ""⟩, ⟨"b", 100, "", "", "", "", 0, ""⟩]
    [⟨"b", 100, "", "", "", "", 0, ""⟩, ⟨"a", 100, "", "", "", "", 0, ""⟩]
    ⟨by decide, by decide⟩

/-- C3: `make_lb_key` is insensitive to the iteration order of the filter
mapping — for any two iteration orders (permutations) of a mapping with
pairwise-distinct variable ids, the serialized canonical key is
identical. -/
theorem make_lb_key_iteration_order_irrelevant (g c l : String)
    (vals₁ vals₂ : List (String × JVal)) (hperm : vals₁.Perm vals₂)
    (hnd : (vals₁.map Prod.fst).Nodup) :
    make_lb_key g c l vals₁ = make_lb_key g c l vals₂ := by
  have hp : (strPairs vals₁).Perm (strPairs vals₂) := hperm.filterMap _
  have hndp : ((strPairs vals₁).map Prod.fst).Nodup :=
    hnd.sublist (strPairs_fst_sublist vals₁)
  have hsort := insertionSort_eq_of_perm_of_nodup_fst hp hndp
  simp only [make_lb_key, hsort]

/-- witness for C3: two iteration orders of the same two-variable filter
mapping produce the same key. -/
theorem make_lb_key_iteration_order_irrelevant_witness :
    make_lb_key "g" "c" "" [("b", JVal.jstr "2"), ("a", JVal.jstr "1")]
      = make_lb_key "g" "c" "" [("a", JVal.jstr "1"), ("b", JVal.jstr "2")] :=
  make_lb_key_iteration_order_irrelevant "g" "c" ""
    [("b", JVal.jstr "2"), ("a", JVal.jstr "1")]
    [("a", JVal.jstr "1"), ("b", JVal.jstr "2")] (by decide) (by decide)

/-- C4 (counterexample): contrary to the claim, an entry whose value is the
EMPTY string is included in the serialized key — `cJSON_IsString` holds and
`valuestring` is a non-NULL pointer to `""`, so the pair passes the filter
at wr_daily.c:816/828 and is serialized as `v=&`.  The claim would force
the two keys below to coincide. -/
theorem make_lb_key_includes_empty_string_value :
    make_lb_key "g" "c" "" [("v", JVal.jstr "")] = "g|c||v=&" ∧
    make_lb_key "g" "c" "" [("v", JVal.jstr "")] ≠ make_lb_key "g" "c" "" [] := by
  constructor
  · rfl
  · decide

/-- C4 (amended): only entries whose value is a string are included in the
serialized key; entries whose value is absent or a non-string contribute
nothing, while a string value — including the empty string — is kept. -/
theorem make_lb_key_ignores_nonstring_values (g c l : String)
    (vals : List (String × JVal)) :
    make_lb_key g c l vals = make_lb_key g c l (vals.filter (fun p => p.2.isStr)) := by
  unfold make_lb_key
  rw [strPairs_filter]

/-- C5: re-inserting a run id that the ledger already holds is a no-op, in
both variants — `add_wr_entry_from_run` (wr_daily.c, guarded by the
`StrSet` of ledger run ids) returns the ledger and the dedup set unchanged,
and `maybe_add_wr_from_run` (wr_weekly.c, guarded by `run_id_in_array`)
returns the ledger and the memo cache unchanged; consequently (middle
conjunct) the daily insert preserves the invariant that ledger run ids are
pairwise distinct and covered by the dedup set. -/
theorem ledger_insert_idempotent_and_nodup :
    (∀ (wrs : List WrEntry) (runIds : List String) (run : RunObj) (ve : Int)
       (iso : String) (rid : String), run.id = some rid → rid ∈ runIds →
        add_wr_entry_from_run wrs runIds run ve iso = (wrs, runIds)) ∧
    (∀ (wrs : List WrEntry) (runIds : List String) (run : RunObj) (ve : Int)
       (iso : String),
        (∀ e ∈ wrs, e.run_id ∈ runIds) →
        (wrs.map WrEntry.run_id).Nodup →
        (∀ e ∈ (add_wr_entry_from_run wrs runIds run ve iso).1,
            e.run_id ∈ (add_wr_entry_from_run wrs runIds run ve iso).2) ∧
        ((add_wr_entry_from_run wrs runIds run ve iso).1.map WrEntry.run_id).Nodup) ∧
    (∀ (cache : List (String × String)) (wrs : List WrEntry) (run : RunObj)
       (vals : List (String × JVal)) (outcome : Top1Outcome) (ve : Int)
       (iso : String) (rid : String), run.id = some rid →
        run_id_in_array wrs rid = true →
        maybe_add_wr_from_run cache wrs run vals outcome ve iso = (wrs, cache)) := by
  refine ⟨?_, ?_, ?_⟩
  · intro wrs runIds run ve iso rid hid hmem
    simp [add_wr_entry_from_run, hid, hmem]
  · intro wrs runIds run ve iso hsub hnd
    cases hid : run.id with
    | none =>
      simp only [add_wr_entry_from_run, hid]
      exact ⟨hsub, hnd⟩
    | some rid =>
      by_cases hmem : rid ∈ runIds
      · simp only [add_wr_entry_from_run, hid, if_pos hmem]
        exact ⟨hsub, hnd⟩
      · cases hg : run.gameId with
        | none =>
          simp only [add_wr_entry_from_run, hid, if_neg hmem, hg]
          exact ⟨hsub, hnd⟩
        | some g =>
          cases hc : run.catId with
          | none =>
            simp only [add_wr_entry_from_run, hid, if_neg hmem, hg, hc]
            exact ⟨hsub, hnd⟩
          | some c =>
            have hrid : rid ∉ wrs.map WrEntry.run_id := by
              intro hin
              rcases List.mem_map.1 hin with ⟨e, he, heq⟩
              exact hmem (heq ▸ hsub e he)
            simp only [add_wr_entry_from_run, hid, if_neg hmem, hg, hc]
            constructor
            · intro e he
              rcases List.mem_append.1 he with h | h
              · exact List.mem_cons_of_mem _ (hsub e h)
              · rcases List.mem_singleton.1 h with rfl
                exact List.mem_cons_self _ _
            · simpa [List.nodup_append, hnd] using hrid
  · intro cache wrs run vals outcome ve iso rid hid harr
    simp [maybe_add_wr_from_run, hid, harr]

/-- witness for C5: a ledger already holding run id `a` is unchanged by a
second insertion of a run with id `a`, in both variants. -/
theorem ledger_insert_idempotent_and_nodup_witness :
    add_wr_entry_from_run [] ["a"]
      ⟨some "a", some "g", none, some "c", none, none, none, 0, none⟩ 7 "iso"
      = ([], ["a"]) ∧
    maybe_add_wr_from_run [] [⟨"a", 5, "", "g", "c", "", 0, ""⟩]
      ⟨some "a", some "g", none, some "c", none, none, none, 0, none⟩ []
      Top1Outcome.fetchFail 7 "iso"
      = ([⟨"a", 5, "", "g", "c", "", 0, ""⟩], []) :=
  ⟨ledger_insert_idempotent_and_nodup.1 [] ["a"]
      ⟨some "a", some "g", none, some "c", none, none, none, 0, none⟩ 7 "iso" "a"
      rfl (by decide),
   ledger_insert_idempotent_and_nodup.2.2 [] [⟨"a", 5, "", "g", "c", "", 0, ""⟩]
      ⟨some "a", some "g", none, some "c", none, none, none, 0, none⟩ []
      Top1Outcome.fetchFail 7 "iso" "a" rfl (by decide)⟩

/-- C6: after `prune_old_wrs arr cutoff` no remaining entry has a
verification instant strictly below the cutoff, and every entry whose
instant is at least the cutoff is retained. -/
theorem prune_correctness (arr : List WrEntry) (cutoff : Int) :
    (∀ e ∈ prune_old_wrs arr cutoff, ¬ (e.verified_epoch < cutoff)) ∧
    (∀ e ∈ arr, cutoff ≤ e.verified_epoch → e ∈ prune_old_wrs arr cutoff) := by
  constructor
  · intro e he
    have h := List.mem_filter.1 he
    simpa using h.2
  · intro e he h
    refine List.mem_filter.2 ⟨he, ?_⟩
    simpa using not_lt.2 h

/-- witness for C6 at a concrete ledger and cutoff. -/
theorem prune_correctness_witness :
    ¬ ((⟨"a", 5, "", "g", "c", "", 0, ""⟩ : WrEntry).verified_epoch < 3) ∧
    (⟨"a", 5, "", "g", "c", "", 0, ""⟩ : WrEntry)
      ∈ prune_old_wrs [⟨"a", 5, "", "g", "c", "", 0, ""⟩] 3 := by
  have h := prune_correctness [⟨"a", 5, "", "g", "c", "", 0, ""⟩] 3
  have hmem := h.2 ⟨"a", 5, "", "g", "c", "", 0, ""⟩ (by decide) (by decide)
  exact ⟨h.1 _ hmem, hmem⟩

/-- C8: when the memo cache misses and the top-1 lookup cannot produce a
top run id (transport/parse failure or a response without one), the
verifier answers `false` — the fail-closed policy of `is_current_wr`
(wr_daily.c:920-929).  The embedding is a total function: no error is
raised on any path. -/
theorem is_current_wr_fail_closed (cache : List (String × String))
    (runId : Option String) (g c l : String) (vals : List (String × JVal))
    (outcome : Top1Outcome)
    (hmiss : lb_cache_get cache (make_lb_key g c l vals) = none)
    (hfail : outcome = Top1Outcome.fetchFail ∨ outcome = Top1Outcome.noTopId) :
    (is_current_wr cache runId g c l vals outcome).1 = false := by
  rcases hfail with h | h <;> subst h <;>
    cases runId <;> simp [is_current_wr, fetch_top1_run_id, hmiss]

/-- witness for C8 on an empty cache and a failed fetch. -/
theorem is_current_wr_fail_closed_witness :
    (is_current_wr [] (some "r") "g" "c" "" [] Top1Outcome.fetchFail).1 = false :=
  is_current_wr_fail_closed [] (some "r") "g" "c" "" [] Top1Outcome.fetchFail rfl
    (Or.inl rfl)

/-- C10: when the memo cache misses and the lookup fails (transport/parse
failure or no top run id in the response), `fetch_top1_run_id` leaves the
cache unchanged — no entry is stored for the key, so a later call for the
same key still misses and re-issues the query. -/
theorem lb_cache_unchanged_on_failure (cache : List (String × String))
    (g c l : String) (vals : List (String × JVal)) (outcome : Top1Outcome)
    (hmiss : lb_cache_get cache (make_lb_key g c l vals) = none)
    (hfail : outcome = Top1Outcome.fetchFail ∨ outcome = Top1Outcome.noTopId) :
    (fetch_top1_run_id cache g c l vals outcome).2 = cache ∧
    lb_cache_get (fetch_top1_run_id cache g c l vals outcome).2
      (make_lb_key g c l vals) = none := by
  rcases hfail with h | h <;> subst h <;>
    simp [fetch_top1_run_id, hmiss]

/-- witness for C10 on an empty cache and a response with no top run id. -/
theorem lb_cache_unchanged_on_failure_witness :
    (fetch_top1_run_id [] "g" "c" "" [] Top1Outcome.noTopId).2 = [] ∧
    lb_cache_get (fetch_top1_run_id [] "g" "c" "" [] Top1Outcome.noTopId).2
      (make_lb_key "g" "c" "" []) = none :=
  lb_cache_unchanged_on_failure [] "g" "c" "" [] Top1Outcome.noTopId rfl (Or.inr rfl)

theorem le_foldl_max (a : Int) (l : List Int) : a ≤ l.foldl max a := by
  induction l generalizing a with
  | nil => simp
  | cons x xs ih => exact le_trans (le_max_left a x) (ih (max a x))

theorem processRun_ghost (cutoff : Int) (st : ScanSt) (r : FeedRun) (v : Int) :
    (processRun cutoff st r v).lastSeen = st.lastSeen ∧
    (processRun cutoff st r v).observed = st.observed := by
  unfold processRun
  repeat' split
  all_goals exact ⟨rfl, rfl⟩

theorem pageLoop_invariant (floor cutoff L0 : Int) :
    ∀ (rs : List FeedRun) (st : ScanSt),
      st.lastSeen = st.observed.foldl max L0 →
      ((pageLoop floor cutoff st rs).1).lastSeen
        = ((pageLoop floor cutoff st rs).1).observed.foldl max L0 := by
  intro rs
  induction rs with
  | nil => intro st h; simpa [pageLoop] using h
  | cons r rest ih =>
    intro st h
    cases hv : r.vtime with
    | none => simpa [pageLoop, hv] using ih st h
    | some v =>
      have h1 : (seeInstant st v).lastSeen
          = (seeInstant st v).observed.foldl max L0 := by
        simp [seeInstant, List.foldl_append, ← h]
      by_cases hf : v < floor
      · simpa [pageLoop, hv, hf] using h1
      · have h2 : (processRun cutoff (seeInstant st v) r v).lastSeen
            = (processRun cutoff (seeInstant st v) r v).observed.foldl max L0 := by
          rw [(processRun_ghost cutoff (seeInstant st v) r v).1,
              (processRun_ghost cutoff (seeInstant st v) r v).2]
          exact h1
        simpa [pageLoop, hv, hf] using ih _ h2

theorem scanLoop_invariant (floor cutoff L0 : Int) :
    ∀ (pages : List PageOutcome) (st : ScanSt),
      st.lastSeen = st.observed.foldl max L0 →
      (scanLoop floor cutoff st pages).lastSeen
        = (scanLoop floor cutoff st pages).observed.foldl max L0 := by
  intro pages
  induction pages with
  | nil => intro st h; simpa [scanLoop] using h
  | cons p rest ih =>
    intro st h
    cases p with
    | none => simpa [scanLoop] using h
    | some page =>
      by_cases hlen : page.length = 0
      · simpa [scanLoop, hlen] using h
      · have hpl := pageLoop_invariant floor cutoff L0 page st h
        by_cases hstop : (pageLoop floor cutoff st page).2
        · simpa [scanLoop, hlen, hstop] using hpl
        · by_cases hshort : page.length < 200
          · simpa [scanLoop, hlen, hstop, hshort] using hpl
          · simpa [scanLoop, hlen, hstop, hshort] using ih _ hpl

theorem pageLoop_append_stop (floor cutoff v : Int) (r : FeedRun)
    (hr : r.vtime = some v) (hv : v < floor) :
    ∀ (rs₁ rs₂ : List FeedRun) (st : ScanSt),
      (∀ x ∈ rs₁, ∀ w, x.vtime = some w → floor ≤ w) →
      pageLoop floor cutoff st (rs₁ ++ r :: rs₂)
        = (seeInstant (pageLoop floor cutoff st rs₁).1 v, true) := by
  intro rs₁
  induction rs₁ with
  | nil =>
    intro rs₂ st _
    simp [pageLoop, hr, hv]
  | cons x xs ih =>
    intro rs₂ st hall
    have hxs : ∀ y ∈ xs, ∀ w, y.vtime = some w → floor ≤ w :=
      fun y hy w hw => hall y (List.mem_cons_of_mem _ hy) w hw
    cases hx : x.vtime with
    | none =>
      simp only [List.cons_append, pageLoop, hx]
      exact ih rs₂ st hxs
    | some w =>
      have hnf : ¬ w < floor := not_lt.2 (hall x (List.mem_cons_self _ _) w hx)
      simp only [List.cons_append, pageLoop, hx, if_neg hnf]
      exact ih rs₂ _ hxs

/-- C7: the `new_last_seen` returned by `scan_new_runs_and_update` is at
least the input `last_seen_epoch`, and equals the maximum of the input and
every parsed verification instant the scan observed (the ghost `observed`
trace records each instant the loop parses — including instants of runs
skipped for being old, duplicate, keyless or non-WR, and the instant of
the run that triggers the scan-floor stop), for every page sequence
including ones ending in a fetch or parse failure. -/
theorem scan_last_seen_monotone_max (last_seen cutoff : Int)
    (runIds : List String) (pages : List PageOutcome) :
    last_seen ≤ (scan_new_runs_and_update last_seen cutoff runIds pages).lastSeen ∧
    (scan_new_runs_and_update last_seen cutoff runIds pages).lastSeen
      = (scan_new_runs_and_update last_seen cutoff runIds pages).observed.foldl
          max last_seen := by
  have h := scanLoop_invariant (scan_floor last_seen cutoff overlap_daily) cutoff
    last_seen pages
    { lastSeen := last_seen, runIds := runIds, keys := [], observed := [] }
    (by simp)
  exact ⟨le_of_le_of_eq (le_foldl_max last_seen _) h.symm, h⟩

/-- C9 (counterexample): the claim's formula for the scan floor omits the
clamp at zero (wr_daily.c:1316): with `last_seen_epoch = 1` the source
computes a floor of `0`, not `1 - overlap = -86399`. -/
theorem scan_floor_clamp_cex :
    scan_floor 1 1000000 overlap_daily = 0 ∧
    scan_floor 1 1000000 overlap_daily ≠ 1 - overlap_daily := by
  constructor <;> decide

/-- C9 (amended): the scan floor is `lastSeen - overlap` when a prior
last-seen value exists and `retentionCutoff - overlap` on a cold start,
clamped below at zero; and once the scan reaches a run whose parsed
verification instant is strictly below the floor, paging stops entirely:
the final state is exactly the state accumulated before that run plus the
recording of its instant into the running maximum — the rest of its page
(`rs₂`) and all further pages (`rest`) are never processed, and no
leaderboard key (in particular not that run's) is processed from that
point on. -/
theorem scan_floor_and_termination :
    (∀ last_seen cutoff overlap : Int,
      scan_floor last_seen cutoff overlap
        = max 0 ((if last_seen > 0 then last_seen else cutoff) - overlap)) ∧
    (∀ (floor cutoff : Int) (st : ScanSt) (rs₁ rs₂ : List FeedRun)
       (r : FeedRun) (v : Int) (rest : List PageOutcome),
      r.vtime = some v → v < floor →
      (∀ x ∈ rs₁, ∀ w, x.vtime = some w → floor ≤ w) →
      scanLoop floor cutoff st (some (rs₁ ++ r :: rs₂) :: rest)
        = seeInstant (pageLoop floor cutoff st rs₁).1 v) := by
  constructor
  · intro ls cutoff ov
    have hf : (if ls > 0 then ls - ov else cutoff - ov)
        = (if ls > 0 then ls else cutoff) - ov := by
      split_ifs <;> rfl
    simp only [scan_floor, hf]
    rcases lt_or_ge ((if ls > 0 then ls else cutoff) - ov) 0 with h | h
    · rw [if_pos h]
      exact (max_eq_left h.le).symm
    · rw [if_neg (not_lt.2 h)]
      exact (max_eq_right h).symm
  · intro floor cutoff st rs₁ rs₂ r v rest hr hv hall
    have hp := pageLoop_append_stop floor cutoff v r hr hv rs₁ rs₂ st hall
    have hlen : ¬ ((rs₁ ++ r :: rs₂).length = 0) := by simp
    simp [scanLoop, hlen, hp]

/-- witness for C9 (amended): a one-page feed whose single run is below the
floor stops immediately, leaving only the recorded instant. -/
theorem scan_floor_and_termination_witness :
    scanLoop 5 0 ⟨0, [], [], []⟩ [some [⟨some 3, none, none, false, []⟩]]
      = seeInstant ⟨0, [], [], []⟩ 3 :=
  scan_floor_and_termination.2 5 0 ⟨0, [], [], []⟩ [] []
    ⟨some 3, none, none, false, []⟩ 3 [] rfl (by decide) (by simp)

end SpeedrunWatch
